import Mathlib

/-!
Verification development for the OTR-FuelPrices repository
(`dump_fuelprices.py`, `graph.py`).

The Python code is shallowly embedded: strings are lists of characters,
JSON payloads are an inductive `JVal`, Python dictionaries are
insertion-ordered association lists, and code paths that raise uncaught
exceptions are modelled with `Except`.
-/

set_option autoImplicit false
set_option linter.unusedSectionVars false

/-- Python strings, modelled as lists of characters. -/
abbrev Str := List Char

/-- Convert a Lean string literal to the `Str` model. -/
def str (s : String) : Str := s.toList

/-- Python `s.split(sep)` for a single-character separator `sep`.
`"a+b+".split("+")` yields `["a", "b", ""]`, and splitting the empty
string yields `[""]`; the result is always non-empty. -/
def splitOnChar (c : Char) : Str → List Str
  | [] => [[]]
  | a :: as =>
    if a = c then [] :: splitOnChar c as
    else
      match splitOnChar c as with
      | [] => [[a]]
      | r :: rs => (a :: r) :: rs

/-- Whitespace characters stripped by Python `int(...)` around the digits. -/
def isPySpace (c : Char) : Bool := c = ' ' || c = '\t' || c = '\n' || c = '\r'

/-- Numeric value of a non-empty all-digit string, `none` otherwise. -/
def digitsVal (s : Str) : Option Nat :=
  if s.isEmpty || !s.all Char.isDigit then none
  else some (s.foldl (fun a c => 10 * a + (c.toNat - 48)) 0)

/-- Python `int(s)` on a string: optional surrounding ASCII whitespace, an
optional sign, then decimal digits; `none` models a raised `ValueError`.
(Digit-group underscores and unicode digits, which CPython also accepts,
are not modelled; no input in this code base uses them.) -/
def pyInt (s : Str) : Option Int :=
  let t := ((s.dropWhile isPySpace).reverse.dropWhile isPySpace).reverse
  match t with
  | '+' :: rest => (digitsVal rest).map Int.ofNat
  | '-' :: rest => (digitsVal rest).map (fun n => -(n : Int))
  | _ => (digitsVal t).map Int.ofNat

/-- Smallest millisecond epoch representable by `datetime` (year 1). -/
def minDatetimeMs : Int := -62135596800000

/-- Largest millisecond epoch representable by `datetime` (year 9999). -/
def maxDatetimeMs : Int := 253402300799999

/-- Model of `convert_date` in `dump_fuelprices.py`:

    timestamp = int(ms_date.split("(")[1].split("+")[0]) / 1000
    return datetime.utcfromtimestamp(timestamp).isoformat()

The function extracts the characters after the first `(` and before the
following `+`, parses them as an integer number of milliseconds, and
formats the naive UTC datetime at that instant as an ISO-8601 string.
Since the formatted string is determined by the extracted millisecond
count, the model returns that count; `none` models the `except` branch
returning Python `None` (`IndexError` when no `(` occurs, `ValueError`
when the digits do not parse, out-of-range errors from
`datetime.utcfromtimestamp`). -/
def convert_date (ms_date : Str) : Option Int :=
  match (splitOnChar '(' ms_date).get? 1 with
  | none => none
  | some seg =>
    match pyInt (((splitOnChar '+' seg).get? 0).getD []) with
    | none => none
    | some n =>
      if minDatetimeMs ≤ n ∧ n ≤ maxDatetimeMs then some n else none

/-- JSON values as decoded by Python `json.loads` / `response.json()`:
`None`, booleans, numbers, strings, lists and dictionaries. Numbers are
modelled as rationals (exact for every decimal literal). -/
inductive JVal where
  | jnull : JVal
  | jbool : Bool → JVal
  | jnum : Rat → JVal
  | jstr : Str → JVal
  | jarr : List JVal → JVal
  | jobj : List (Str × JVal) → JVal

/-- A Python dictionary key: the hashable JSON scalars. Booleans collapse
into numbers exactly as in CPython, where `True == 1` and the two collide
as dictionary keys. Lists and dictionaries are unhashable and have no key. -/
inductive JKey where
  | knull : JKey
  | knum : Rat → JKey
  | kstr : Str → JKey
deriving DecidableEq

/-- The dictionary key of a JSON value, or `none` when using the value as a
key raises `TypeError` (unhashable list or dictionary). -/
def jkey? : JVal → Option JKey
  | .jnull => some .knull
  | .jbool b => some (.knum (if b then 1 else 0))
  | .jnum q => some (.knum q)
  | .jstr s => some (.kstr s)
  | .jarr _ => none
  | .jobj _ => none

/-- Python truthiness of a JSON value: `None`, `False`, `0`, the empty
string, the empty list and the empty dictionary are falsy. -/
def pyTruthy : JVal → Bool
  | .jnull => false
  | .jbool b => b
  | .jnum q => decide (q ≠ 0)
  | .jstr s => !s.isEmpty
  | .jarr xs => !xs.isEmpty
  | .jobj fs => !fs.isEmpty

example : splitOnChar '+' (str "a+b+") = [str "a", str "b", []] := by decide
example : convert_date (str "/Date(1733180280000+1030)/") = some 1733180280000 := by decide
example : convert_date (str "nodate") = none := by decide
example : pyInt (str "-42") = some (-42) := by decide

/-! ## Insertion-ordered dictionaries

Python dictionaries preserve insertion order: assigning to an existing key
updates the value in place, assigning to a fresh key appends. They are
modelled as association lists with exactly that assignment operation. -/

section PyDict

variable {κ : Type} {α : Type} [DecidableEq κ]

/-- The keys of an association list, in order. -/
def dkeys (m : List (κ × α)) : List κ := m.map Prod.fst

/-- Python dictionary assignment `m[k] = v`: update in place when `k` is
already a key (keeping its position in insertion order), append
otherwise. A Python dictionary never holds two entries with the same
key, so replacing the first occurrence is exact. -/
def dinsert : List (κ × α) → κ → α → List (κ × α)
  | [], k, v => [(k, v)]
  | (a, b) :: t, k, v =>
    if a = k then (k, v) :: t else (a, b) :: dinsert t k v

/-- Python dictionary lookup `m[k]` / `m.get(k)`: the first (and, for a
real dictionary, only) entry with key `k`. -/
def dlookup (k : κ) : List (κ × α) → Option α
  | [] => none
  | (a, b) :: t => if a = k then some b else dlookup k t

/-- Fold a list of values into a dictionary, keying each value by `key`:
the model of a Python dict comprehension body running left to right. -/
def dfold (key : α → κ) (m : List (κ × α)) (l : List α) : List (κ × α) :=
  l.foldl (fun m p => dinsert m (key p) p) m

/-- The dict comprehension keying each element of `l` by `key`. -/
def dictOf (key : α → κ) (l : List α) : List (κ × α) := dfold key [] l

/-- Line 184 of `dump_fuelprices.py`: a dict comprehension over
`existing_prices + new_prices` keyed by the string
`date ++ "_" ++ department_code` of each entry, followed by
`list(updated_prices.values())`; stated generically over the entry type
and the key function. -/
def mergePrices (key : α → κ) (existing_prices new_prices : List α) : List α :=
  (dictOf key (existing_prices ++ new_prices)).map Prod.snd

/-- The last element of `l` whose key is `k` (what a left-to-right
sequence of dictionary assignments leaves at key `k`). -/
def lastWithKey (key : α → κ) (k : κ) (l : List α) : Option α :=
  l.foldl (fun acc p => if key p = k then some p else acc) none

/-- The first element of `l` whose key is `k`. -/
def firstWithKey (key : α → κ) (k : κ) : List α → Option α
  | [] => none
  | p :: t => if key p = k then some p else firstWithKey key k t

end PyDict

/-- First-of: `oElse a b` is `a` unless `a` is `none`, in which case it is `b`. -/
def oElse {α : Type} : Option α → Option α → Option α
  | some x, _ => some x
  | none, b => b

/-- A well-formed dictionary: keys are pairwise distinct and every entry
is stored under the key computed from its value. Every dictionary built
by `dfold` from the empty dictionary satisfies this. -/
def DictWF {κ α : Type} (key : α → κ) (m : List (κ × α)) : Prop :=
  (dkeys m).Nodup ∧ ∀ p ∈ m, p.1 = key p.2

section PyDictLemmas

variable {κ : Type} {α : Type} [DecidableEq κ] {key : α → κ}

@[simp] theorem oElse_none {a : Option α} : oElse a none = a := by
  cases a <;> rfl

@[simp] theorem oElse_some {a : Option α} {x : α} :
    oElse (some x) a = some x := rfl

@[simp] theorem none_oElse {a : Option α} : oElse none a = a := rfl

theorem oElse_assoc {a b c : Option α} :
    oElse (oElse a b) c = oElse a (oElse b c) := by
  cases a <;> rfl

@[simp] theorem dkeys_nil : dkeys ([] : List (κ × α)) = [] := rfl

@[simp] theorem dkeys_cons {a : κ} {b : α} {t : List (κ × α)} :
    dkeys ((a, b) :: t) = a :: dkeys t := rfl

@[simp] theorem dkeys_append {m1 m2 : List (κ × α)} :
    dkeys (m1 ++ m2) = dkeys m1 ++ dkeys m2 := List.map_append _ _ _

theorem mem_dkeys {m : List (κ × α)} {k : κ} :
    k ∈ dkeys m ↔ ∃ p ∈ m, p.1 = k := by
  simp [dkeys, List.mem_map]

theorem dkeys_dinsert_mem {m : List (κ × α)} {k : κ} {v : α}
    (h : k ∈ dkeys m) : dkeys (dinsert m k v) = dkeys m := by
  induction m with
  | nil => simp at h
  | cons p t ih =>
    obtain ⟨a, b⟩ := p
    by_cases ha : a = k
    · subst ha; simp [dinsert]
    · rcases List.mem_cons.mp (by simpa using h) with h1 | h1
      · exact absurd h1.symm ha
      · simp only [dinsert, if_neg ha, dkeys_cons]
        rw [ih h1]

theorem dkeys_dinsert_not_mem {m : List (κ × α)} {k : κ} {v : α}
    (h : k ∉ dkeys m) : dkeys (dinsert m k v) = dkeys m ++ [k] := by
  induction m with
  | nil => simp [dinsert]
  | cons p t ih =>
    obtain ⟨a, b⟩ := p
    simp only [dkeys_cons, List.mem_cons] at h
    push_neg at h
    simp only [dinsert, if_neg (Ne.symm h.1), dkeys_cons, List.cons_append]
    rw [ih h.2]

theorem mem_dkeys_dinsert {m : List (κ × α)} {k k' : κ} {v : α} :
    k' ∈ dkeys (dinsert m k v) ↔ k' ∈ dkeys m ∨ k' = k := by
  by_cases h : k ∈ dkeys m
  · rw [dkeys_dinsert_mem h]
    constructor
    · exact Or.inl
    · rintro (h1 | rfl) <;> [exact h1; exact h]
  · rw [dkeys_dinsert_not_mem h]; simp

theorem dlookup_none_of_not_mem {m : List (κ × α)} {k : κ}
    (h : k ∉ dkeys m) : dlookup k m = none := by
  induction m with
  | nil => rfl
  | cons p t ih =>
    obtain ⟨a, b⟩ := p
    simp only [dkeys_cons, List.mem_cons] at h
    push_neg at h
    simp only [dlookup, if_neg (Ne.symm h.1)]
    exact ih h.2

theorem dlookup_dinsert_self {m : List (κ × α)} {k : κ} {v : α} :
    dlookup k (dinsert m k v) = some v := by
  induction m with
  | nil => simp [dinsert, dlookup]
  | cons p t ih =>
    obtain ⟨a, b⟩ := p
    by_cases ha : a = k
    · subst ha; simp [dinsert, dlookup]
    · simp only [dinsert, if_neg ha, dlookup, if_neg ha]
      exact ih

theorem dlookup_dinsert_ne {m : List (κ × α)} {k k' : κ} {v : α}
    (hne : k' ≠ k) : dlookup k' (dinsert m k v) = dlookup k' m := by
  induction m with
  | nil => simp [dinsert, dlookup, if_neg (Ne.symm hne)]
  | cons p t ih =>
    obtain ⟨a, b⟩ := p
    by_cases ha : a = k
    · subst ha
      simp only [dinsert, if_pos rfl, dlookup, if_neg (Ne.symm hne)]
    · simp only [dinsert, if_neg ha, dlookup]
      by_cases hak : a = k'
      · simp [hak]
      · simp only [if_neg hak]
        exact ih

end PyDictLemmas

section DFoldLemmas

variable {κ : Type} {α : Type} [DecidableEq κ] {key : α → κ}

@[simp] theorem dfold_nil {m : List (κ × α)} : dfold key m [] = m := rfl

@[simp] theorem dfold_cons {m : List (κ × α)} {p : α} {l : List α} :
    dfold key m (p :: l) = dfold key (dinsert m (key p) p) l := rfl

theorem dfold_append {m : List (κ × α)} {l1 l2 : List α} :
    dfold key m (l1 ++ l2) = dfold key (dfold key m l1) l2 :=
  List.foldl_append _ _ _ _

@[simp] theorem lastWithKey_nil {k : κ} :
    lastWithKey key k ([] : List α) = none := rfl

theorem foldl_lastWithKey_acc {l : List α} {k : κ} {acc : Option α} :
    l.foldl (fun acc p => if key p = k then some p else acc) acc
      = oElse (lastWithKey key k l) acc := by
  induction l generalizing acc with
  | nil => simp [lastWithKey]
  | cons q l ih =>
    show List.foldl _ (if key q = k then some q else acc) l = _
    rw [ih]
    show _ = oElse (List.foldl _ (if key q = k then some q else none) l) acc
    rw [ih, oElse_assoc]
    by_cases h : key q = k <;> simp [h]

theorem lastWithKey_cons {q : α} {l : List α} {k : κ} :
    lastWithKey key k (q :: l)
      = oElse (lastWithKey key k l) (if key q = k then some q else none) := by
  show List.foldl _ (if key q = k then some q else none) l = _
  exact foldl_lastWithKey_acc

theorem lastWithKey_append {l1 l2 : List α} {k : κ} :
    lastWithKey key k (l1 ++ l2)
      = oElse (lastWithKey key k l2) (lastWithKey key k l1) := by
  unfold lastWithKey
  rw [List.foldl_append]
  exact foldl_lastWithKey_acc

theorem lastWithKey_mem {l : List α} {k : κ} {p : α}
    (h : lastWithKey key k l = some p) : p ∈ l ∧ key p = k := by
  induction l with
  | nil => cases h
  | cons q l ih =>
    rw [lastWithKey_cons] at h
    cases hl : lastWithKey key k l with
    | some r =>
      rw [hl, oElse_some] at h
      injection h with h
      subst h
      obtain ⟨hm, hk⟩ := ih hl
      exact ⟨List.mem_cons_of_mem _ hm, hk⟩
    | none =>
      rw [hl, none_oElse] at h
      by_cases hq : key q = k
      · rw [if_pos hq] at h
        injection h with h
        subst h
        exact ⟨List.mem_cons_self _ _, hq⟩
      · rw [if_neg hq] at h
        cases h

theorem lastWithKey_isSome_of_mem {l : List α} {k : κ}
    (h : k ∈ l.map key) : ∃ p, lastWithKey key k l = some p := by
  induction l with
  | nil => simp at h
  | cons q l ih =>
    rw [lastWithKey_cons]
    rw [List.map_cons] at h
    cases List.mem_cons.mp h with
    | inl h1 =>
      cases hl : lastWithKey key k l with
      | some r => exact ⟨r, oElse_some⟩
      | none => exact ⟨q, by rw [none_oElse, if_pos h1.symm]⟩
    | inr h1 =>
      obtain ⟨p, hp⟩ := ih h1
      exact ⟨p, by rw [hp, oElse_some]⟩

theorem dlookup_dfold {m : List (κ × α)} {l : List α} {k : κ} :
    dlookup k (dfold key m l) = oElse (lastWithKey key k l) (dlookup k m) := by
  induction l generalizing m with
  | nil => simp
  | cons p l ih =>
    rw [dfold_cons, ih, lastWithKey_cons, oElse_assoc]
    by_cases h : key p = k
    · rw [if_pos h, oElse_some, ← h, dlookup_dinsert_self]
    · rw [if_neg h, none_oElse, dlookup_dinsert_ne (fun hc => h hc.symm)]

theorem mem_dkeys_dfold {m : List (κ × α)} {l : List α} {k : κ} :
    k ∈ dkeys (dfold key m l) ↔ k ∈ dkeys m ∨ k ∈ l.map key := by
  induction l generalizing m with
  | nil => simp
  | cons p l ih =>
    rw [dfold_cons, ih]
    simp only [mem_dkeys_dinsert, List.map_cons, List.mem_cons]
    tauto

theorem dkeys_dfold_of_sub {m : List (κ × α)} {l : List α}
    (h : ∀ p ∈ l, key p ∈ dkeys m) : dkeys (dfold key m l) = dkeys m := by
  induction l generalizing m with
  | nil => rfl
  | cons p l ih =>
    rw [dfold_cons, ih, dkeys_dinsert_mem (h p (List.mem_cons_self _ _))]
    intro q hq
    rw [mem_dkeys_dinsert]
    exact Or.inl (h q (List.mem_cons_of_mem _ hq))

theorem mem_dinsert {m : List (κ × α)} {k : κ} {v : α} {p : κ × α}
    (h : p ∈ dinsert m k v) : p ∈ m ∨ p = (k, v) := by
  induction m with
  | nil => simpa [dinsert] using h
  | cons q t ih =>
    obtain ⟨a, b⟩ := q
    by_cases ha : a = k
    · subst ha
      simp only [dinsert, if_pos rfl] at h
      cases h with
      | head => exact Or.inr rfl
      | tail _ h2 => exact Or.inl (List.mem_cons_of_mem _ h2)
    · simp only [dinsert, if_neg ha] at h
      cases h with
      | head => exact Or.inl (List.mem_cons_self _ _)
      | tail _ h2 =>
        cases ih h2 with
        | inl h1 => exact Or.inl (List.mem_cons_of_mem _ h1)
        | inr h1 => exact Or.inr h1

theorem DictWF_nil : DictWF key ([] : List (κ × α)) :=
  ⟨List.nodup_nil, by simp⟩

theorem DictWF_dinsert {m : List (κ × α)} {v : α}
    (h : DictWF key m) : DictWF key (dinsert m (key v) v) := by
  constructor
  · by_cases hm : key v ∈ dkeys m
    · rw [dkeys_dinsert_mem hm]; exact h.1
    · rw [dkeys_dinsert_not_mem hm]
      simp [List.nodup_append, h.1, hm]
  · intro p hp
    rcases mem_dinsert hp with h1 | h1
    · exact h.2 p h1
    · rw [h1]

theorem DictWF_dfold {m : List (κ × α)} {l : List α}
    (h : DictWF key m) : DictWF key (dfold key m l) := by
  induction l generalizing m with
  | nil => exact h
  | cons p l ih => exact ih (DictWF_dinsert h)

theorem dict_ext {m1 m2 : List (κ × α)} (h1 : (dkeys m1).Nodup)
    (hk : dkeys m1 = dkeys m2) (hl : ∀ k, dlookup k m1 = dlookup k m2) :
    m1 = m2 := by
  induction m1 generalizing m2 with
  | nil =>
    cases m2 with
    | nil => rfl
    | cons p t =>
      obtain ⟨a2, b2⟩ := p
      simp at hk
  | cons p t1 ih =>
    obtain ⟨a, b⟩ := p
    cases m2 with
    | nil => simp at hk
    | cons q t2 =>
      obtain ⟨a2, b2⟩ := q
      simp only [dkeys_cons, List.cons.injEq] at hk
      obtain ⟨rfl, hk2⟩ := hk
      have hb : b = b2 := by
        have := hl a
        simpa [dlookup] using this
      subst hb
      have h1t : (dkeys t1).Nodup := (List.nodup_cons.mp h1).2
      have hna : a ∉ dkeys t1 := (List.nodup_cons.mp h1).1
      have hna2 : a ∉ dkeys t2 := hk2 ▸ hna
      have : t1 = t2 := by
        apply ih h1t hk2
        intro k
        by_cases hak : a = k
        · subst hak
          rw [dlookup_none_of_not_mem hna, dlookup_none_of_not_mem hna2]
        · have := hl k
          simpa [dlookup, if_neg hak] using this
      rw [this]

theorem dinsert_not_mem_eq_append {m : List (κ × α)} {k : κ} {v : α}
    (h : k ∉ dkeys m) : dinsert m k v = m ++ [(k, v)] := by
  induction m with
  | nil => rfl
  | cons p t ih =>
    obtain ⟨a, b⟩ := p
    simp only [dkeys_cons, List.mem_cons] at h
    push_neg at h
    simp only [dinsert, if_neg (Ne.symm h.1), List.cons_append]
    rw [ih h.2]

theorem dictOf_values_self {m : List (κ × α)} (h : DictWF key m) :
    dictOf key (m.map Prod.snd) = m := by
  induction m using List.reverseRecOn with
  | nil => rfl
  | append_singleton t p ih =>
    obtain ⟨k, v⟩ := p
    have hwf_t : DictWF key t := by
      refine ⟨?_, fun q hq => h.2 q (List.mem_append_left _ hq)⟩
      have := h.1
      rw [dkeys_append] at this
      exact (List.nodup_append.mp this).1
    have hkv : k = key v := h.2 (k, v) (List.mem_append_right _ (by simp))
    have hknot : k ∉ dkeys t := by
      have := h.1
      rw [dkeys_append] at this
      have hd := (List.nodup_append.mp this).2.2
      intro hc
      exact hd hc (by simp)
    rw [List.map_append]
    show dfold key [] (t.map Prod.snd ++ [v]) = _
    rw [dfold_append]
    show dinsert (dictOf key (t.map Prod.snd)) (key v) v = _
    rw [ih hwf_t, ← hkv, dinsert_not_mem_eq_append hknot]

theorem map_key_values {m : List (κ × α)} (h : DictWF key m) :
    (m.map Prod.snd).map key = dkeys m := by
  rw [List.map_map]
  exact List.map_congr_left (fun p hp => (h.2 p hp).symm)

theorem firstWithKey_values {m : List (κ × α)} {k : κ}
    (h : ∀ p ∈ m, p.1 = key p.2) :
    firstWithKey key k (m.map Prod.snd) = dlookup k m := by
  induction m with
  | nil => rfl
  | cons p t ih =>
    obtain ⟨a, b⟩ := p
    have ha : a = key b := h (a, b) (List.mem_cons_self _ _)
    simp only [List.map_cons, firstWithKey, dlookup, ← ha]
    by_cases hak : a = k
    · simp [hak]
    · simp only [if_neg hak]
      exact ih (fun q hq => h q (List.mem_cons_of_mem _ hq))

end DFoldLemmas

section MergeLemmas

variable {κ : Type} {α : Type} [DecidableEq κ] {key : α → κ}

theorem DictWF_dictOf {l : List α} : DictWF key (dictOf key l) :=
  DictWF_dfold DictWF_nil

theorem dlookup_dictOf {l : List α} {k : κ} :
    dlookup k (dictOf key l) = lastWithKey key k l := by
  show dlookup k (dfold key [] l) = _
  rw [dlookup_dfold]
  show oElse _ none = _
  exact oElse_none

theorem mergePrices_map_key {e n : List α} :
    (mergePrices key e n).map key = dkeys (dictOf key (e ++ n)) :=
  map_key_values DictWF_dictOf

theorem mergePrices_keys_nodup {e n : List α} :
    ((mergePrices key e n).map key).Nodup := by
  rw [mergePrices_map_key]
  exact DictWF_dictOf.1

theorem mem_mergePrices_keys {e n : List α} {k : κ} :
    k ∈ (mergePrices key e n).map key ↔ k ∈ (e ++ n).map key := by
  rw [mergePrices_map_key]
  show k ∈ dkeys (dfold key [] (e ++ n)) ↔ _
  rw [mem_dkeys_dfold]
  simp

theorem firstWithKey_mergePrices {e n : List α} {k : κ} :
    firstWithKey key k (mergePrices key e n) = lastWithKey key k (e ++ n) := by
  rw [mergePrices, firstWithKey_values DictWF_dictOf.2, dlookup_dictOf]

theorem mergePrices_idem {e n : List α} :
    mergePrices key (mergePrices key e n) n = mergePrices key e n := by
  have hwf : DictWF key (dictOf key (e ++ n)) := DictWF_dictOf
  show (dictOf key ((dictOf key (e ++ n)).map Prod.snd ++ n)).map Prod.snd
      = (dictOf key (e ++ n)).map Prod.snd
  have h2 : dictOf key ((dictOf key (e ++ n)).map Prod.snd ++ n)
      = dfold key (dictOf key ((dictOf key (e ++ n)).map Prod.snd)) n :=
    dfold_append
  rw [h2, dictOf_values_self hwf]
  have h3 : dfold key (dictOf key (e ++ n)) n = dictOf key (e ++ n) := by
    apply dict_ext (DictWF_dfold hwf).1
    · apply dkeys_dfold_of_sub
      intro p hp
      show key p ∈ dkeys (dfold key [] (e ++ n))
      rw [mem_dkeys_dfold]
      exact Or.inr (List.mem_map_of_mem _ (List.mem_append_right _ hp))
    · intro k
      rw [dlookup_dfold]
      cases hlast : lastWithKey key k n with
      | some p =>
        rw [oElse_some, dlookup_dictOf, lastWithKey_append, hlast, oElse_some]
      | none => rw [none_oElse]
  rw [h3]

theorem dictOf_of_nodup_keys {l : List α} (h : (l.map key).Nodup) :
    dictOf key l = l.map (fun p => (key p, p)) := by
  induction l using List.reverseRecOn with
  | nil => rfl
  | append_singleton t p ih =>
    rw [List.map_append] at h
    have ht : (t.map key).Nodup := (List.nodup_append.mp h).1
    have hp : key p ∉ t.map key := by
      intro hc
      exact (List.nodup_append.mp h).2.2 hc (by simp)
    have h2 : dictOf key (t ++ [p]) = dfold key (dictOf key t) [p] :=
      dfold_append
    rw [h2]
    show dinsert (dictOf key t) (key p) p = _
    have hnot : key p ∉ dkeys (dictOf key t) := by
      intro hc
      rw [show dictOf key t = dfold key [] t from rfl, mem_dkeys_dfold] at hc
      rcases hc with hc | hc
      · simp at hc
      · exact hp hc
    rw [dinsert_not_mem_eq_append hnot, ih ht, List.map_append]
    rfl

theorem mergePrices_disjoint_eq_append {e n : List α}
    (h1 : (e.map key).Nodup) (h2 : (n.map key).Nodup)
    (hd : ∀ k ∈ e.map key, k ∉ n.map key) :
    mergePrices key e n = e ++ n := by
  have hall : ((e ++ n).map key).Nodup := by
    rw [List.map_append, List.nodup_append]
    exact ⟨h1, h2, hd⟩
  rw [mergePrices, dictOf_of_nodup_keys hall, List.map_map]
  have hid : (Prod.snd ∘ fun p : α => (key p, p)) = id := rfl
  rw [List.map_append, hid, List.map_id, List.map_id]

end MergeLemmas

/-! ## Upstream payload processing (`fetch_and_save_fuel_prices`) -/

/-- Uncaught Python exceptions raised by the processing loops. -/
inductive PyErr where
  | attributeError : PyErr
  | keyError : PyErr
  | typeError : PyErr
deriving DecidableEq

/-- Failures surfaced by `asyncio.gather(..., return_exceptions=True)`
for one per-site fetch: network errors, `raise_for_status` on a non-2xx
response, and a body that fails JSON decoding inside `response.json()`. -/
inductive FetchErr where
  | network : FetchErr
  | httpStatus : FetchErr
  | jsonDecode : FetchErr
deriving DecidableEq

/-- Python `fs.get(k)` over the fields of a decoded JSON dictionary. -/
def jobjGet (fs : List (Str × JVal)) (k : Str) : Option JVal := dlookup k fs

/-- Python iteration over a JSON value: lists yield their elements,
strings yield one-character strings, dictionaries yield their keys;
`None`, booleans and numbers raise `TypeError`. -/
def iterElems : JVal → Except PyErr (List JVal)
  | .jarr xs => .ok xs
  | .jstr s => .ok (s.map (fun c => .jstr [c]))
  | .jobj fs => .ok (fs.map (fun kv => .jstr kv.1))
  | _ => .error .typeError

/-- One element of the `new_prices` list built at lines 154-164: an
admitted record with its fuel-grade code, parsed date and price. The
`date` field holds the millisecond epoch represented by the ISO string
the code stores (see `convert_date`). -/
structure NormEntry where
  department_code : JVal
  date : Int
  price : JVal

/-- Model of `convert_date` applied to a JSON value: a non-string raises inside
the `try` (no `split` attribute) and yields `None` like any other
conversion failure. -/
def jdate : JVal → Option Int
  | .jstr s => convert_date s
  | _ => none

/-- One iteration of the `for entry in result.get("sitefuelprices", [])`
loop body (lines 155-164): `entry.get` raises `AttributeError` on a
non-dictionary entry; `entry["date_entered"]` raises `KeyError` when that
key is missing; `convert_date` swallows its own errors (including being
handed a non-string) and yields `None`; the record is appended only when
the fuel-grade code is truthy, the price is truthy and the converted
date is present (the ISO string returned on success is always truthy). -/
def normalizeEntry (entry : JVal) : Except PyErr (Option NormEntry) :=
  match entry with
  | .jobj fs =>
    let department_code := (jobjGet fs (str "department_code")).getD .jnull
    let price := (jobjGet fs (str "current_price")).getD .jnull
    match jobjGet fs (str "date_entered") with
    | none => .error .keyError
    | some dv =>
      match jdate dv with
      | some d =>
        if pyTruthy department_code && pyTruthy price then
          .ok (some ⟨department_code, d, price⟩)
        else .ok none
      | none => .ok none
  | _ => .error .attributeError

/-- The whole `for entry in ...` loop: entries are processed left to
right, an uncaught exception aborts at the first bad entry. -/
def normalizePrices : List JVal → Except PyErr (List NormEntry)
  | [] => .ok []
  | e :: es =>
    match normalizeEntry e with
    | .error pe => .error pe
    | .ok r =>
      match normalizePrices es with
      | .error pe => .error pe
      | .ok rest => .ok (match r with | some p => p :: rest | none => rest)

/-- Lines 153-164 applied to one successfully fetched payload:
`result.get` raises `AttributeError` unless the payload is a dictionary;
the value under `sitefuelprices` defaults to the empty list and is
iterated. -/
def processPayload (result : JVal) : Except PyErr (List NormEntry) :=
  match result with
  | .jobj fs =>
    match iterElems ((jobjGet fs (str "sitefuelprices")).getD (.jarr [])) with
    | .error pe => .error pe
    | .ok entries => normalizePrices entries
  | _ => .error .attributeError

/-- The files written and the final state of one batch run. -/
structure BatchResult where
  rawWrites : List (Str × JVal)
  parsedWrites : List (Str × List NormEntry)
  crash : Option PyErr

/-- The per-site loop of `fetch_and_save_fuel_prices` (lines 135-190),
applied to the zipped `site_codes`/`results` pairs produced by
`asyncio.gather(*tasks, return_exceptions=True)`: each result is either
a fetch-level exception or the decoded payload. A result that is an
exception is logged and skipped (`continue`). Otherwise the raw payload
is written verbatim first; an uncaught exception while parsing the
prices then aborts the whole loop, leaving every later site unprocessed.
`rawWrites` and `parsedWrites` collect the files written in order (each
parsed write carries the `new_prices` list, which line 184 merges into
the on-disk store with `mergePrices`, modelled separately); `crash`
records an uncaught exception ending the loop early. -/
def fetch_and_save_fuel_prices : List (Str × Except FetchErr JVal) → BatchResult
  | [] => ⟨[], [], none⟩
  | (_, .error _) :: rest => fetch_and_save_fuel_prices rest
  | (site, .ok payload) :: rest =>
    match processPayload payload with
    | .error pe => ⟨[(site, payload)], [], some pe⟩
    | .ok prices =>
      let r := fetch_and_save_fuel_prices rest
      ⟨(site, payload) :: r.rawWrites, (site, prices) :: r.parsedWrites, r.crash⟩

/-! ## Site reconciliation (`fetch_site_mappings`) -/

/-- A site record as built by `fetch_site_mappings`: both loops store a
dictionary with exactly the keys `name`, `latitude`, `longitude` and
`address`, so a fixed record is exact. -/
structure SiteRec where
  name : JVal
  latitude : JVal
  longitude : JVal
  address : JVal

/-- Decimal digits of a natural number. -/
def natStr (n : Nat) : Str := Nat.toDigits 10 n

/-- Decimal form of an integer. -/
def intStr (i : Int) : Str :=
  if i < 0 then '-' :: natStr i.natAbs else natStr i.toNat

/-- Python `str()` of a JSON value, used only to synthesize the default
site name in the f-string `Site ...`. For a non-integral number a
fraction form stands in for CPython float repr (no site code in any
claim is a non-integral number), and containers use a placeholder (a
container site code raises before the name is ever stored). -/
def pyStr : JVal → Str
  | .jnull => str "None"
  | .jbool true => str "True"
  | .jbool false => str "False"
  | .jstr s => s
  | .jnum q => if q.den = 1 then intStr q.num else intStr q.num ++ '/' :: natStr q.den
  | .jarr _ => str "<list>"
  | .jobj _ => str "<dict>"

/-- The synthesized placeholder name `Site <code>`. -/
def defaultSiteName (code : JVal) : Str := str "Site " ++ pyStr code

/-- Reconciler state: the running site mappings and the site-code set
(modelled as a duplicate-free list in insertion order). -/
abbrev RecState := List (JKey × SiteRec) × List JKey

/-- Python `set.add`. -/
def addCode (codes : List JKey) (k : JKey) : List JKey :=
  if k ∈ codes then codes else codes ++ [k]

/-- The record dictionary built at lines 98-103 from a `get_sites`
element: `name` defaults to the synthesized placeholder, the other three
fields default to `None`. -/
def siteARecord (fs : List (Str × JVal)) : SiteRec :=
  ⟨(jobjGet fs (str "name")).getD
      (.jstr (defaultSiteName ((jobjGet fs (str "site_code")).getD .jnull))),
   (jobjGet fs (str "latitude")).getD .jnull,
   (jobjGet fs (str "longitude")).getD .jnull,
   (jobjGet fs (str "address")).getD .jnull⟩

/-- One iteration of the loop over `get_sites_response["sites"]`
(lines 95-104): `site.get` raises on a non-dictionary element; a falsy
`site_code` is skipped; otherwise a record with the four fields (name
defaulting to the synthesized placeholder, the rest to `None`) is
assigned into the mappings and the code is added to the set. An
unhashable (list or dictionary) site code raises `TypeError`. -/
def processSiteA (st : RecState) (site : JVal) : Except PyErr RecState :=
  match site with
  | .jobj fs =>
    let code := (jobjGet fs (str "site_code")).getD .jnull
    if pyTruthy code then
      match jkey? code with
      | none => .error .typeError
      | some k => .ok (dinsert st.1 k (siteARecord fs), addCode st.2 k)
    else .ok st
  | _ => .error .attributeError

/-- The dictionary passed to `update` at lines 112-117 from a `site`
element: it always contains all four keys, `SiteName` defaulting to the
synthesized placeholder and the rest to `None`. -/
def siteBRecord (fs : List (Str × JVal)) : SiteRec :=
  ⟨(jobjGet fs (str "SiteName")).getD
      (.jstr (defaultSiteName ((jobjGet fs (str "SiteCode")).getD .jnull))),
   (jobjGet fs (str "Latitude")).getD .jnull,
   (jobjGet fs (str "Longitude")).getD .jnull,
   (jobjGet fs (str "StreetAddress")).getD .jnull⟩

/-- One iteration of the loop over `site_response` (lines 107-118). The
Python code first inserts an empty record when the code is new, then
calls `update` with a dictionary that always contains all four keys, so
the previous record at that code contributes nothing at all: the net
effect is assignment of the full four-field record, which `dinsert`
performs. -/
def processSiteB (st : RecState) (site : JVal) : Except PyErr RecState :=
  match site with
  | .jobj fs =>
    let code := (jobjGet fs (str "SiteCode")).getD .jnull
    if pyTruthy code then
      match jkey? code with
      | none => .error .typeError
      | some k => .ok (dinsert st.1 k (siteBRecord fs), addCode st.2 k)
    else .ok st
  | _ => .error .attributeError

/-- Left-to-right loop over raw site elements, stopping at the first
uncaught exception. -/
def foldSites (f : RecState → JVal → Except PyErr RecState) :
    RecState → List JVal → Except PyErr RecState
  | st, [] => .ok st
  | st, x :: xs =>
    match f st x with
    | .error e => .error e
    | .ok st2 => foldSites f st2 xs

/-- Model of `fetch_site_mappings` (lines 72-121) applied to the two decoded
listing responses. When `get_sites_response` is not a dictionary
containing the key `sites`, or `site_response` is not a list, the
function logs an error and returns the empty set and empty mapping
(lines 82-89); otherwise it processes the `get_sites` source first and
the `site` source second and returns the code set and the mappings. -/
def fetch_site_mappings (get_sites_response site_response : JVal) :
    Except PyErr (List JKey × List (JKey × SiteRec)) :=
  match get_sites_response with
  | .jobj fs =>
    match jobjGet fs (str "sites") with
    | none => .ok ([], [])
    | some sitesVal =>
      match site_response with
      | .jarr siteList =>
        match iterElems sitesVal with
        | .error e => .error e
        | .ok sitesA =>
          match foldSites processSiteA ([], []) sitesA with
          | .error e => .error e
          | .ok st1 =>
            match foldSites processSiteB st1 siteList with
            | .error e => .error e
            | .ok st2 => .ok (st2.2, st2.1)
      | _ => .ok ([], [])
  | _ => .ok ([], [])

/-! ## The chart renderer loader (`graph.py`) -/

/-- Python `s.endswith(suffix)`. -/
def pyEndsWith (s suffix : Str) : Bool := suffix.isSuffixOf s

/-- The raw filename written at line 141 of `dump_fuelprices.py`:
`fuelprices_<site_code>.json` (for a string site code the f-string
interpolation is the identity). -/
def rawFilename (site_code : Str) : Str :=
  str "fuelprices_" ++ site_code ++ str ".json"

/-- The loop body of `load_fuel_prices` of `graph.py` (lines 9-29) over
a directory listing of file names with their decoded JSON contents (a
file whose text fails JSON decoding is logged and skipped, so only
decoded contents appear here). Only names ending in `_fuelprices.json`
are considered; the site code is the text before the first underscore;
a content that is a dictionary contributes its `sitefuelprices` list
(default empty) when that value is a list, and is skipped with a log
otherwise; `data.get` on a non-dictionary content raises an uncaught
`AttributeError`. -/
def loadFuelAux (acc : List (Str × JVal)) :
    List (Str × JVal) → Except PyErr (List (Str × JVal))
  | [] => .ok acc
  | (file, data) :: rest =>
    if pyEndsWith file (str "_fuelprices.json") then
      match data with
      | .jobj fs =>
        match (jobjGet fs (str "sitefuelprices")).getD (.jarr []) with
        | .jarr l =>
          loadFuelAux (dinsert acc ((splitOnChar '_' file).headD []) (.jarr l)) rest
        | _ => loadFuelAux acc rest
      | _ => .error .attributeError
    else loadFuelAux acc rest

/-- Model of `load_fuel_prices` of `graph.py`: fold the directory listing into
the `fuel_data` dictionary. -/
def load_fuel_prices (files : List (Str × JVal)) : Except PyErr (List (Str × JVal)) :=
  loadFuelAux [] files

/-- Sample `get_sites` element: record for site X1 with the name `A`. -/
def siteA_X1 : JVal :=
  .jobj [(str "site_code", .jstr (str "X1")), (str "name", .jstr (str "A"))]

/-- Sample `site` element fields: record for site X1 supplying only the
street address `1 Main St` and no name. -/
def siteB_X1_fields : List (Str × JVal) :=
  [(str "SiteCode", .jstr (str "X1")), (str "StreetAddress", .jstr (str "1 Main St"))]

def siteB_X1 : JVal := .jobj siteB_X1_fields

/-- Sample price payload with one fully valid record. -/
def goodPayload : JVal :=
  .jobj [(str "sitefuelprices",
    .jarr [.jobj [(str "department_code", .jstr (str "diesel")),
                  (str "current_price", .jnum 155),
                  (str "date_entered", .jstr (str "/Date(1733180280000+1030)/"))]])]

/-! ## String lemmas -/

theorem splitOnChar_cons (c a : Char) (as : Str) :
    splitOnChar c (a :: as) =
      if a = c then [] :: splitOnChar c as
      else
        match splitOnChar c as with
        | [] => [[a]]
        | r :: rs => (a :: r) :: rs := rfl

theorem splitOnChar_ne_nil {c : Char} {s : Str} : splitOnChar c s ≠ [] := by
  cases s with
  | nil => simp [splitOnChar]
  | cons a as =>
    by_cases h : a = c
    · simp [splitOnChar, h]
    · simp only [splitOnChar, if_neg h]
      cases splitOnChar c as <;> simp

theorem splitOnChar_of_not_mem {c : Char} {s : Str} (h : c ∉ s) :
    splitOnChar c s = [s] := by
  induction s with
  | nil => rfl
  | cons a as ih =>
    rw [List.mem_cons] at h
    push_neg at h
    simp only [splitOnChar, if_neg (Ne.symm h.1), ih h.2]

theorem splitOnChar_append_cons {c : Char} {xs ys : Str} (h : c ∉ xs) :
    splitOnChar c (xs ++ c :: ys) = xs :: splitOnChar c ys := by
  induction xs with
  | nil => simp [splitOnChar]
  | cons a as ih =>
    rw [List.mem_cons] at h
    push_neg at h
    rw [List.cons_append, splitOnChar_cons, if_neg (Ne.symm h.1), ih h.2]

theorem splitOnChar_head_takeWhile {c : Char} {s : Str} :
    (splitOnChar c s).get? 0 = some (s.takeWhile (fun a => a != c)) := by
  induction s with
  | nil => rfl
  | cons a as ih =>
    by_cases h : a = c
    · subst h
      rw [List.takeWhile_cons_of_neg (by simp)]
      simp [splitOnChar]
    · simp only [splitOnChar, if_neg h]
      cases hs : splitOnChar c as with
      | nil => exact absurd hs splitOnChar_ne_nil
      | cons r rs =>
        rw [hs] at ih
        have hr : r = as.takeWhile (fun a => a != c) := by simpa using ih
        rw [List.takeWhile_cons_of_pos (by simp [h])]
        simp [hr]

theorem takeWhile_append_all {p : Char → Bool} {xs ys : Str}
    (h : ∀ a ∈ xs, p a = true) :
    (xs ++ ys).takeWhile p = xs ++ ys.takeWhile p := by
  induction xs with
  | nil => rfl
  | cons a as ih =>
    rw [List.cons_append, List.takeWhile_cons_of_pos (h a (List.mem_cons_self _ _)),
      ih (fun b hb => h b (List.mem_cons_of_mem _ hb)), List.cons_append]

theorem append_suffix_append {t a b : Str} : (a ++ t) <:+ (b ++ t) ↔ a <:+ b := by
  constructor
  · rintro ⟨u, hu⟩
    refine ⟨u, ?_⟩
    rw [← List.append_assoc] at hu
    exact List.append_cancel_right hu
  · rintro ⟨u, hu⟩
    exact ⟨u, by rw [← List.append_assoc, hu]⟩

theorem pyEndsWith_append_right {x y t : Str} :
    pyEndsWith (x ++ t) (y ++ t) = pyEndsWith x y := by
  unfold pyEndsWith
  have h1 : (y ++ t).isSuffixOf (x ++ t) = true ↔ y.isSuffixOf x = true := by
    rw [List.isSuffixOf_iff_suffix, List.isSuffixOf_iff_suffix]
    exact append_suffix_append
  cases hxy : y.isSuffixOf x with
  | true => exact h1.mpr hxy
  | false =>
    cases hc : (y ++ t).isSuffixOf (x ++ t) with
    | true => rw [hxy] at h1; exact absurd (h1.mp hc) (by simp)
    | false => rfl

theorem append_sep_inj {sep : Char} {xs ys as bs : Str}
    (hx : sep ∉ xs) (hy : sep ∉ ys) :
    xs ++ sep :: as = ys ++ sep :: bs ↔ xs = ys ∧ as = bs := by
  constructor
  · intro h
    have h2 := congrArg (splitOnChar sep) h
    rw [splitOnChar_append_cons hx, splitOnChar_append_cons hy] at h2
    injection h2 with hxy hrest
    subst hxy
    have h3 := List.append_cancel_left h
    injection h3 with _ hab
    exact ⟨rfl, hab⟩
  · rintro ⟨rfl, rfl⟩; rfl

/-- A stored price entry of the parsed per-site JSON file: the entries
of `existing_prices` and `new_prices` at line 184. -/
structure Price where
  date : Str
  department_code : Str
  price : Rat
deriving DecidableEq

/-- The composite key of line 184, the f-string joining the date and the
fuel-grade (department) code with an underscore. -/
def priceKey (p : Price) : Str := p.date ++ '_' :: p.department_code

/-! ## Claim theorems -/

/-- Sample data: an existing entry and an incoming entry for the same
composite key (fuel grade `diesel`, one timestamp `T1`), the incoming
one carrying the newer price. -/
def existingSample : List Price := [⟨str "2024-12-02T22:18:00", str "diesel", 150⟩]

def newSample : List Price := [⟨str "2024-12-02T22:18:00", str "diesel", 155⟩]

/-- C1: within one site price history, merging the existing entries with
the newly fetched entries keyed by the composite (date, fuel-grade) key
yields exactly one entry per composite key — the merged keys are pairwise
distinct and cover exactly the input keys — and when an existing entry
and a new entry share a composite key, the new value is kept: the unique
merged entry at such a key is the last new entry carrying it. The final
conjunct certifies that for underscore-free dates the string key of line
184 coincides with the (date, fuel-grade) pair. -/
theorem merge_unique_per_key_new_wins (existing_prices new_prices : List Price)
    (k : Str) (hk : k ∈ new_prices.map priceKey) :
    ((mergePrices priceKey existing_prices new_prices).map priceKey).Nodup
    ∧ (∀ k2, k2 ∈ (mergePrices priceKey existing_prices new_prices).map priceKey
        ↔ k2 ∈ (existing_prices ++ new_prices).map priceKey)
    ∧ (∃ p ∈ new_prices, priceKey p = k
        ∧ firstWithKey priceKey k (mergePrices priceKey existing_prices new_prices)
            = some p
        ∧ lastWithKey priceKey k new_prices = some p)
    ∧ (∀ p q : Price, '_' ∉ p.date → '_' ∉ q.date →
        (priceKey p = priceKey q
          ↔ p.date = q.date ∧ p.department_code = q.department_code)) := by
  refine ⟨mergePrices_keys_nodup, fun k2 => mem_mergePrices_keys, ?_, ?_⟩
  · obtain ⟨p, hp⟩ := lastWithKey_isSome_of_mem hk
    obtain ⟨hmem, hkey⟩ := lastWithKey_mem hp
    exact ⟨p, hmem, hkey,
      by rw [firstWithKey_mergePrices, lastWithKey_append, hp, oElse_some], hp⟩
  · intro p q hp hq
    unfold priceKey
    exact append_sep_inj hp hq

/-- C1 witness: the diesel/T1 example, price 150 merged with price 155. -/
theorem merge_unique_per_key_new_wins_witness :
    ((mergePrices priceKey existingSample newSample).map priceKey).Nodup
    ∧ (∀ k2, k2 ∈ (mergePrices priceKey existingSample newSample).map priceKey
        ↔ k2 ∈ (existingSample ++ newSample).map priceKey)
    ∧ (∃ p ∈ newSample, priceKey p = str "2024-12-02T22:18:00_diesel"
        ∧ firstWithKey priceKey (str "2024-12-02T22:18:00_diesel")
            (mergePrices priceKey existingSample newSample) = some p
        ∧ lastWithKey priceKey (str "2024-12-02T22:18:00_diesel") newSample = some p)
    ∧ (∀ p q : Price, '_' ∉ p.date → '_' ∉ q.date →
        (priceKey p = priceKey q
          ↔ p.date = q.date ∧ p.department_code = q.department_code)) :=
  merge_unique_per_key_new_wins existingSample newSample
    (str "2024-12-02T22:18:00_diesel") (by decide)

/-- Sample data with disjoint composite keys (two different dates). -/
def disjointExisting : List Price := [⟨str "2024-12-01T10:00:00", str "diesel", 150⟩]

def disjointNew : List Price := [⟨str "2024-12-02T22:18:00", str "diesel", 155⟩]

/-- C5: for histories whose composite keys are disjoint (each history
itself duplicate-free, as the store invariant guarantees), the merge of
line 184 is exactly the concatenation — the union with no entries lost —
and merging the same new entries a second time yields the same result as
merging them once. -/
theorem merge_disjoint_union_and_idempotent (e n : List Price)
    (h1 : (e.map priceKey).Nodup) (h2 : (n.map priceKey).Nodup)
    (hd : ∀ k ∈ e.map priceKey, k ∉ n.map priceKey) :
    mergePrices priceKey e n = e ++ n
    ∧ mergePrices priceKey (mergePrices priceKey e n) n
        = mergePrices priceKey e n :=
  ⟨mergePrices_disjoint_eq_append h1 h2 hd, mergePrices_idem⟩

/-- C5 witness: two singleton histories at different dates. -/
theorem merge_disjoint_union_and_idempotent_witness :
    mergePrices priceKey disjointExisting disjointNew
        = disjointExisting ++ disjointNew
    ∧ mergePrices priceKey (mergePrices priceKey disjointExisting disjointNew)
        disjointNew = mergePrices priceKey disjointExisting disjointNew :=
  merge_disjoint_union_and_idempotent disjointExisting disjointNew
    (by decide) (by decide) (by decide)

/-- C2 counterexample: with source A supplying record (id `X1`, name `A`)
and source B supplying (id `X1`, address `1 Main St`) and no name, the
merged record for X1 has name `Site X1` — the placeholder default written
by the second loop — not the name `A` that the claim says is retained
from source A. -/
theorem site_merge_name_overwritten_counterexample :
    fetch_site_mappings (.jobj [(str "sites", .jarr [siteA_X1])]) (.jarr [siteB_X1])
      = .ok ([.kstr (str "X1")],
          [(.kstr (str "X1"),
            ⟨.jstr (str "Site X1"), .jnull, .jnull, .jstr (str "1 Main St")⟩)])
    ∧ str "Site X1" ≠ str "A" :=
  ⟨rfl, by decide⟩

/-- C2 amended: for a site id supplied by both sources, the merge is
last-write-wins per record, not per field: the later-processed source
overwrites all four fields (name, latitude, longitude, address),
substituting the synthesized placeholder name and nulls for fields it
does not supply; only a record whose site id the later source does not
mention at all is retained unchanged from the earlier source. -/
theorem siteB_overwrites_all_fields (st : RecState) (fs : List (Str × JVal))
    (k : JKey)
    (ht : pyTruthy ((jobjGet fs (str "SiteCode")).getD .jnull) = true)
    (hk : jkey? ((jobjGet fs (str "SiteCode")).getD .jnull) = some k) :
    processSiteB st (.jobj fs)
      = .ok (dinsert st.1 k (siteBRecord fs), addCode st.2 k)
    ∧ dlookup k (dinsert st.1 k (siteBRecord fs)) = some (siteBRecord fs)
    ∧ ∀ k2, k2 ≠ k →
        dlookup k2 (dinsert st.1 k (siteBRecord fs)) = dlookup k2 st.1 := by
  refine ⟨?_, dlookup_dinsert_self, fun k2 h2 => dlookup_dinsert_ne h2⟩
  simp [processSiteB, ht, hk]

/-- The reconciler state after processing source A record X1: name `A`,
all other fields null. -/
def stateFromA : RecState :=
  ([(.kstr (str "X1"), ⟨.jstr (str "A"), .jnull, .jnull, .jnull⟩)],
   [.kstr (str "X1")])

/-- C2 witness: source B record X1 applied on top of the source A state
holding name `A` for X1. -/
theorem siteB_overwrites_all_fields_witness :
    processSiteB stateFromA (.jobj siteB_X1_fields)
      = .ok (dinsert stateFromA.1 (.kstr (str "X1")) (siteBRecord siteB_X1_fields),
             addCode stateFromA.2 (.kstr (str "X1")))
    ∧ dlookup (.kstr (str "X1"))
        (dinsert stateFromA.1 (.kstr (str "X1")) (siteBRecord siteB_X1_fields))
        = some (siteBRecord siteB_X1_fields)
    ∧ ∀ k2, k2 ≠ .kstr (str "X1") →
        dlookup k2 (dinsert stateFromA.1 (.kstr (str "X1")) (siteBRecord siteB_X1_fields))
          = dlookup k2 stateFromA.1 :=
  siteB_overwrites_all_fields stateFromA
    siteB_X1_fields (.kstr (str "X1")) (by decide) (by decide)

/-- C3 counterexample: a successfully fetched payload that is valid JSON
but not a mapping (here the empty list) raises an uncaught
`AttributeError` at `result.get`, ending the loop: the later site S2 of
the same batch — which alone would have been processed and persisted, as
the second conjunct shows — is neither processed nor persisted. -/
theorem batch_nonmapping_payload_aborts_counterexample :
    fetch_and_save_fuel_prices
        [(str "S1", .ok (.jarr [])), (str "S2", .ok goodPayload)]
      = ⟨[(str "S1", .jarr [])], [], some .attributeError⟩
    ∧ fetch_and_save_fuel_prices [(str "S2", .ok goodPayload)]
      = ⟨[(str "S2", goodPayload)],
         [(str "S2", [⟨.jstr (str "diesel"), 1733180280000, .jnum 155⟩])], none⟩ :=
  ⟨rfl, rfl⟩

/-- C3 amended: per-site failures surfaced by the fetch itself — network
errors, non-2xx statuses, JSON-decode failures, i.e. exactly the
exceptions collected by `gather(..., return_exceptions=True)` — are
skipped individually and never affect the rest of the batch: deleting
such a site from the batch leaves the batch result unchanged. (A
well-formed-JSON payload of unexpected shape, by contrast, aborts every
later site, as the counterexample shows.) -/
theorem fetch_and_save_cons_err {site : Str} {e : FetchErr}
    {rest : List (Str × Except FetchErr JVal)} :
    fetch_and_save_fuel_prices ((site, .error e) :: rest)
      = fetch_and_save_fuel_prices rest := rfl

theorem fetch_and_save_cons_crash {site : Str} {payload : JVal} {pe : PyErr}
    {rest : List (Str × Except FetchErr JVal)}
    (hp : processPayload payload = .error pe) :
    fetch_and_save_fuel_prices ((site, .ok payload) :: rest)
      = ⟨[(site, payload)], [], some pe⟩ := by
  simp [fetch_and_save_fuel_prices, hp]

theorem fetch_and_save_cons_ok {site : Str} {payload : JVal}
    {prices : List NormEntry} {rest : List (Str × Except FetchErr JVal)}
    (hp : processPayload payload = .ok prices) :
    fetch_and_save_fuel_prices ((site, .ok payload) :: rest)
      = ⟨(site, payload) :: (fetch_and_save_fuel_prices rest).rawWrites,
         (site, prices) :: (fetch_and_save_fuel_prices rest).parsedWrites,
         (fetch_and_save_fuel_prices rest).crash⟩ := by
  simp [fetch_and_save_fuel_prices, hp]

theorem fetch_error_isolated (pre post : List (Str × Except FetchErr JVal))
    (site : Str) (e : FetchErr) :
    fetch_and_save_fuel_prices (pre ++ (site, .error e) :: post)
      = fetch_and_save_fuel_prices (pre ++ post) := by
  induction pre with
  | nil => rfl
  | cons q pre ih =>
    obtain ⟨s1, r1⟩ := q
    cases r1 with
    | error e1 =>
      rw [List.cons_append, List.cons_append,
        fetch_and_save_cons_err, fetch_and_save_cons_err, ih]
    | ok payload =>
      cases hp : processPayload payload with
      | error pe =>
        rw [List.cons_append, List.cons_append,
          fetch_and_save_cons_crash hp, fetch_and_save_cons_crash hp]
      | ok prices =>
        rw [List.cons_append, List.cons_append,
          fetch_and_save_cons_ok hp, fetch_and_save_cons_ok hp, ih]

/-- The shape test of lines 82-84: the `get_sites` response is recognized
iff it is a dictionary containing the key `sites`. -/
def recognizedGetSites : JVal → Bool
  | .jobj fs => (jobjGet fs (str "sites")).isSome
  | _ => false

/-- The shape test of lines 87-89: the `site` response is recognized iff
it is a list. -/
def recognizedSiteResponse : JVal → Bool
  | .jarr _ => true
  | _ => false

/-- C4 counterexample: when the `get_sites` response has an unrecognized
top-level shape (a bare list) while the `site` response is well-shaped
and carries record X1, the reconciler returns the empty set and empty
mapping — discarding the X1 harvest that, as the second conjunct shows,
the well-shaped source alone produces. -/
theorem reconciler_discards_wellformed_source_counterexample :
    fetch_site_mappings (.jarr []) (.jarr [siteB_X1]) = .ok ([], [])
    ∧ fetch_site_mappings (.jobj [(str "sites", .jarr [])]) (.jarr [siteB_X1])
      = .ok ([.kstr (str "X1")],
          [(.kstr (str "X1"), siteBRecord siteB_X1_fields)]) :=
  ⟨rfl, rfl⟩

/-- C4 amended: when either listing response has an unrecognized
top-level shape, the run continues (no exception is raised) but the
reconciler returns the empty set and the empty mapping: the malformed
source does not merely contribute zero records, it also discards
everything harvested from the other, well-shaped source. -/
theorem reconciler_bad_shape_returns_empty (g s : JVal)
    (h : recognizedGetSites g = false ∨ recognizedSiteResponse s = false) :
    fetch_site_mappings g s = .ok ([], []) := by
  cases g with
  | jobj fs =>
    cases hs : jobjGet fs (str "sites") with
    | none => simp [fetch_site_mappings, hs]
    | some v =>
      have hbad : recognizedSiteResponse s = false := by
        rcases h with h | h
        · exfalso
          simp only [recognizedGetSites, hs, Option.isSome_some] at h
          cases h
        · exact h
      cases s with
      | jnull => simp [fetch_site_mappings, hs]
      | jbool b => simp [fetch_site_mappings, hs]
      | jnum q => simp [fetch_site_mappings, hs]
      | jstr s2 => simp [fetch_site_mappings, hs]
      | jarr l => simp [recognizedSiteResponse] at hbad
      | jobj fs2 => simp [fetch_site_mappings, hs]
  | jnull => rfl
  | jbool b => rfl
  | jnum q => rfl
  | jstr s2 => rfl
  | jarr l => rfl

/-- C4 witness: both responses malformed lists. -/
theorem reconciler_bad_shape_returns_empty_witness :
    fetch_site_mappings (.jarr []) (.jarr []) = .ok ([], []) :=
  reconciler_bad_shape_returns_empty (.jarr []) (.jarr []) (Or.inl rfl)

/-- C6: a timestamp token missing the parenthesis-delimited epoch (no
`(` occurs in it) makes `convert_date` return an absent value — the
caught `IndexError` path — rather than raising, and a price record
owning such a timestamp is excluded from the normalized history: the
loop yields no entry and no error for it. -/
theorem convert_date_malformed_absent_and_excluded (s : Str) (h : '(' ∉ s) :
    convert_date s = none
    ∧ ∀ fs, jobjGet fs (str "date_entered") = some (.jstr s) →
        normalizeEntry (.jobj fs) = .ok none := by
  have hc : convert_date s = none := by
    unfold convert_date
    rw [splitOnChar_of_not_mem h]
    rfl
  refine ⟨hc, fun fs hfs => ?_⟩
  simp [normalizeEntry, hfs, jdate, hc]

/-- C6 witness: the example token with the parenthesis missing. -/
theorem convert_date_malformed_absent_and_excluded_witness :
    convert_date (str "/Date1733180280000+1030/") = none
    ∧ ∀ fs, jobjGet fs (str "date_entered")
          = some (.jstr (str "/Date1733180280000+1030/")) →
        normalizeEntry (.jobj fs) = .ok none :=
  convert_date_malformed_absent_and_excluded (str "/Date1733180280000+1030/") (by decide)

/-- C7 counterexample: two well-formed tokens carrying the same
millisecond epoch but different UTC offsets (`+1030` and `+0000`)
convert to the same result: the offset is split off and discarded, so
the produced instant cannot reflect it (the code formats the naive UTC
datetime, which carries no offset at all). -/
theorem convert_date_offset_ignored_counterexample :
    convert_date (str "/Date(1733180280000+1030)/") = some 1733180280000
    ∧ convert_date (str "/Date(1733180280000+0000)/") = some 1733180280000
    ∧ str "/Date(1733180280000+1030)/" ≠ str "/Date(1733180280000+0000)/" :=
  ⟨by decide, by decide, by decide⟩

/-- C7 amended: for a well-formed token of shape
`<pre> ( <digits> + <tail>` — no `(` before or inside the digits, no `+`
inside them — `convert_date` extracts the digits as the millisecond
epoch and returns the naive UTC instant at that epoch (provided it is
within datetime range); everything from the first `+` on, in particular
the UTC offset, is discarded and has no influence on the result. -/
theorem convert_date_extracts_epoch_discards_offset
    (pre digits tail : Str) (n : Int)
    (hpre : '(' ∉ pre) (hd1 : '(' ∉ digits) (hd2 : '+' ∉ digits)
    (hn : pyInt digits = some n)
    (hlo : minDatetimeMs ≤ n) (hhi : n ≤ maxDatetimeMs) :
    convert_date (pre ++ '(' :: (digits ++ '+' :: tail)) = some n := by
  have hseg : (splitOnChar '(' (pre ++ '(' :: (digits ++ '+' :: tail))).get? 1
      = some (digits ++ '+' :: (tail.takeWhile (fun a => a != '('))) := by
    rw [splitOnChar_append_cons hpre]
    show (splitOnChar '(' (digits ++ '+' :: tail)).get? 0 = _
    rw [splitOnChar_head_takeWhile]
    rw [takeWhile_append_all]
    · rw [List.takeWhile_cons_of_pos (by decide)]
    · intro a ha
      simp only [bne_iff_ne, ne_eq]
      intro hc
      exact hd1 (hc ▸ ha)
  have hfirst : (splitOnChar '+'
        (digits ++ '+' :: (tail.takeWhile (fun a => a != '(')))).get? 0
      = some digits := by
    rw [splitOnChar_append_cons hd2]
    rfl
  simp only [convert_date, hseg, hfirst, Option.getD_some, hn]
  rw [if_pos ⟨hlo, hhi⟩]

/-- C7 witness: the token `/Date(1733180280000+1030)/` split into its
prefix, digits and offset tail. -/
theorem convert_date_extracts_epoch_discards_offset_witness :
    convert_date (str "/Date" ++ '(' :: (str "1733180280000" ++ '+' :: str "1030)/"))
      = some 1733180280000 :=
  convert_date_extracts_epoch_discards_offset (str "/Date") (str "1733180280000")
    (str "1030)/") 1733180280000 (by decide) (by decide) (by decide) (by decide)
    (by decide) (by decide)

/-- The admission rule as the (amended) claim states it: a record is
admitted with its grade, parsed date and price iff its fuel-grade code
is truthy, its price is truthy and its timestamp parses. This definition
follows the words of the claim and is proved to coincide with the code
model `normalizeEntry` for records that carry the timestamp field. -/
def admitRecord (e : JVal) : Option NormEntry :=
  match e with
  | .jobj gs =>
    match jdate ((jobjGet gs (str "date_entered")).getD .jnull) with
    | some d =>
      if pyTruthy ((jobjGet gs (str "department_code")).getD .jnull)
          && pyTruthy ((jobjGet gs (str "current_price")).getD .jnull) then
        some ⟨(jobjGet gs (str "department_code")).getD .jnull, d,
              (jobjGet gs (str "current_price")).getD .jnull⟩
      else none
    | none => none
  | _ => none

theorem normalizeEntry_eq_admit (gs : List (Str × JVal))
    (h : (jobjGet gs (str "date_entered")).isSome) :
    normalizeEntry (.jobj gs) = .ok (admitRecord (.jobj gs)) := by
  cases hdv : jobjGet gs (str "date_entered") with
  | none => rw [hdv] at h; cases h
  | some dv =>
    simp only [normalizeEntry, admitRecord, hdv, Option.getD_some]
    cases hd : jdate dv with
    | none => rfl
    | some d => by_cases hb : pyTruthy ((jobjGet gs (str "department_code")).getD .jnull)
          && pyTruthy ((jobjGet gs (str "current_price")).getD .jnull) <;>
        simp [hb]

theorem normalizePrices_filterMap (entries : List JVal)
    (hwf : ∀ e ∈ entries, ∃ gs, e = .jobj gs
        ∧ (jobjGet gs (str "date_entered")).isSome) :
    normalizePrices entries = .ok (entries.filterMap admitRecord) := by
  induction entries with
  | nil => rfl
  | cons e es ih =>
    obtain ⟨gs, rfl, hds⟩ := hwf e (List.mem_cons_self _ _)
    have h1 := normalizeEntry_eq_admit gs hds
    have h2 := ih (fun e2 he2 => hwf e2 (List.mem_cons_of_mem _ he2))
    simp only [normalizePrices, h1, h2, List.filterMap_cons]
    cases admitRecord (.jobj gs) <;> rfl

/-- Fields of a price record with a present price of zero. -/
def zeroPriceEntryFields : List (Str × JVal) :=
  [(str "department_code", .jstr (str "diesel")),
   (str "current_price", .jnum 0),
   (str "date_entered", .jstr (str "/Date(1733180280000+1030)/"))]

/-- Fields of a price record missing the timestamp field. -/
def noDateEntryFields : List (Str × JVal) :=
  [(str "department_code", .jstr (str "diesel")),
   (str "current_price", .jnum 155)]

/-- C8 counterexample: a record with a present price of `0` — present
but falsy — satisfies the admission conditions as the claim states them
(non-empty grade,
present price, parsable timestamp) yet is dropped; and a record missing
its timestamp field is not silently dropped but raises an uncaught
`KeyError`. -/
theorem admitted_iff_counterexample :
    normalizeEntry (.jobj zeroPriceEntryFields) = .ok none
    ∧ jobjGet zeroPriceEntryFields (str "current_price") = some (.jnum 0)
    ∧ pyTruthy (.jstr (str "diesel")) = true
    ∧ convert_date (str "/Date(1733180280000+1030)/") = some 1733180280000
    ∧ normalizeEntry (.jobj noDateEntryFields) = .error .keyError :=
  ⟨rfl, rfl, rfl, by decide, rfl⟩

/-- C8 amended: provided every upstream record is a mapping carrying the
timestamp field (a record without it raises and aborts instead), a
record is admitted into the normalized history iff it has a truthy
fuel-grade code, a truthy price (a present price of zero or an empty
string is dropped) and a successfully parsed timestamp — the persisted
list is exactly the admission filter over the records — while the raw
payload file keeps every record verbatim. -/
theorem admitted_records_characterized (site : Str) (fs : List (Str × JVal))
    (entries : List JVal)
    (hsf : (jobjGet fs (str "sitefuelprices")).getD (.jarr []) = .jarr entries)
    (hwf : ∀ e ∈ entries, ∃ gs, e = .jobj gs
        ∧ (jobjGet gs (str "date_entered")).isSome) :
    fetch_and_save_fuel_prices [(site, .ok (.jobj fs))]
      = ⟨[(site, .jobj fs)], [(site, entries.filterMap admitRecord)], none⟩ := by
  have hpp : processPayload (.jobj fs) = .ok (entries.filterMap admitRecord) := by
    simp only [processPayload, hsf, iterElems]
    exact normalizePrices_filterMap entries hwf
  rw [fetch_and_save_cons_ok hpp]
  rfl

/-- Fields of a fully valid price record. -/
def goodEntryFields : List (Str × JVal) :=
  [(str "department_code", .jstr (str "diesel")),
   (str "current_price", .jnum 155),
   (str "date_entered", .jstr (str "/Date(1733180280000+1030)/"))]

/-- One valid record and one present-but-zero-price record. -/
def mixedEntries : List JVal := [.jobj goodEntryFields, .jobj zeroPriceEntryFields]

/-- C8 witness: a payload holding one admissible record and one record
with price zero. -/
theorem admitted_records_characterized_witness :
    fetch_and_save_fuel_prices
        [(str "S1", .ok (.jobj [(str "sitefuelprices", .jarr mixedEntries)]))]
      = ⟨[(str "S1", .jobj [(str "sitefuelprices", .jarr mixedEntries)])],
         [(str "S1", mixedEntries.filterMap admitRecord)], none⟩ :=
  admitted_records_characterized (str "S1")
    [(str "sitefuelprices", .jarr mixedEntries)] mixedEntries rfl
    (fun e he => by
      cases he with
      | head => exact ⟨goodEntryFields, rfl, rfl⟩
      | tail _ h2 =>
        cases h2 with
        | head => exact ⟨zeroPriceEntryFields, rfl, rfl⟩
        | tail _ h3 => cases h3)

/-- C10 counterexample: for the site id `a_fuelprices` the fetcher
writes `fuelprices_a_fuelprices.json`, which does end in
`_fuelprices.json`, so the loader does consider it — and files it under
the site code `fuelprices`, the text before the first underscore: the
store-then-load round trip is not the empty mapping. -/
theorem loader_accepts_fetcher_file_counterexample :
    pyEndsWith (rawFilename (str "a_fuelprices")) (str "_fuelprices.json") = true
    ∧ load_fuel_prices
        [(rawFilename (str "a_fuelprices"), .jobj [(str "sitefuelprices", .jarr [])])]
      = .ok [(str "fuelprices", .jarr [])]
    ∧ [(str "fuelprices", JVal.jarr [])] ≠ ([] : List (Str × JVal)) :=
  ⟨by decide, rfl, List.cons_ne_nil _ _⟩

theorem loadFuelAux_all_rejected (acc : List (Str × JVal))
    (files : List (Str × JVal))
    (h : ∀ f ∈ files, pyEndsWith f.1 (str "_fuelprices.json") = false) :
    loadFuelAux acc files = .ok acc := by
  induction files with
  | nil => rfl
  | cons f rest ih =>
    obtain ⟨file, data⟩ := f
    have hf := h (file, data) (List.mem_cons_self _ _)
    simp only [loadFuelAux, hf, Bool.false_eq_true, if_false]
    exact ih (fun f2 h2 => h f2 (List.mem_cons_of_mem _ h2))

/-- C10 amended: provided `fuelprices_<site_id>` does not itself end in
`_fuelprices` — true of ordinary site codes; ids such as `a_fuelprices`
or `fuelprices` are the exceptions the counterexample exhibits — the
file the fetcher writes for that site is never considered by the
loader, and a raw-payload directory populated only with such files
loads to the empty mapping. -/
theorem fetcher_files_not_loaded (site : Str)
    (h : pyEndsWith (str "fuelprices_" ++ site) (str "_fuelprices") = false) :
    pyEndsWith (rawFilename site) (str "_fuelprices.json") = false
    ∧ ∀ files : List (Str × JVal),
        (∀ f ∈ files, ∃ s2, f.1 = rawFilename s2
            ∧ pyEndsWith (str "fuelprices_" ++ s2) (str "_fuelprices") = false) →
        load_fuel_prices files = .ok [] := by
  have key : ∀ s2 : Str,
      pyEndsWith (str "fuelprices_" ++ s2) (str "_fuelprices") = false →
      pyEndsWith (rawFilename s2) (str "_fuelprices.json") = false := by
    intro s2 h2
    have hr : rawFilename s2 = (str "fuelprices_" ++ s2) ++ str ".json" := by
      simp [rawFilename, List.append_assoc]
    have h3 : str "_fuelprices.json" = str "_fuelprices" ++ str ".json" := by decide
    rw [hr, h3, pyEndsWith_append_right]
    exact h2
  refine ⟨key site h, fun files hf => ?_⟩
  apply loadFuelAux_all_rejected
  intro f hmem
  obtain ⟨s2, he, h2⟩ := hf f hmem
  rw [he]
  exact key s2 h2

/-- C10 witness: the ordinary site id `X1`. -/
theorem fetcher_files_not_loaded_witness :
    pyEndsWith (rawFilename (str "X1")) (str "_fuelprices.json") = false
    ∧ ∀ files : List (Str × JVal),
        (∀ f ∈ files, ∃ s2, f.1 = rawFilename s2
            ∧ pyEndsWith (str "fuelprices_" ++ s2) (str "_fuelprices") = false) →
        load_fuel_prices files = .ok [] :=
  fetcher_files_not_loaded (str "X1") (by decide)
